import Mathlib

/-!
Shallow embedding of the md-file-viewer worker's retention/history/folder
core (the second worker variant in the source bundle, whose
`addHistoryEntry`, `runRetention` and folder routes the specification
describes).  Timestamps are modelled as integers (milliseconds since the
epoch); ISO strings and `Date` round-trip bijectively on valid timestamps.
The KV metadata namespace is an association list from file id (the
`meta:{id}` key with its constant tag stripped) to the parse result of the
stored JSON: `some m` for a record that parses, `none` for a corrupt one
(the source treats corruption as skip-on-read).  The R2 bucket is the list
of blob ids present (`{id}.md` keys); blob contents are irrelevant to every
claim.
-/

/-- One parsed `meta:{id}` record. -/
structure Meta where
  filename : String
  src : String
  size : Nat
  created : Option Int
  lastAccessedAt : Option Int
  archivedAt : Option Int
  folderId : Option String
deriving DecidableEq

/-- One entry of the global `history` list. -/
structure HistEntry where
  id : String
  filename : String
  src : String
  viewedAt : Int
deriving DecidableEq

/-- One entry of the global `folders` list. -/
structure Folder where
  id : String
  name : String
  fileIds : List String
  created : Int
deriving DecidableEq

/-- The KV metadata namespace: file id to parse result of the stored JSON. -/
abbrev MetaKV := List (String × Option Meta)

/-- Combined state of the two stores the handlers touch: the R2 bucket
(`blobs`, by id), the `meta:*` keys, the `history` key and the `folders`
key of the KV namespace. -/
structure Store where
  blobs : List String
  metas : MetaKV
  history : List HistEntry
  folders : List Folder
deriving DecidableEq

/-- `kv.get('meta:'+id)`: `none` when the key is absent, `some v` with `v`
the parse result otherwise. -/
def kvGetMeta (metas : MetaKV) (k : String) : Option (Option Meta) :=
  (metas.find? (fun p => p.1 == k)).map (fun p => p.2)

/-- `kv.put('meta:'+id, ...)`: replace the (unique) binding for `k`, or
append a fresh one. -/
def kvPutMeta : MetaKV → String → Option Meta → MetaKV
  | [], k, v => [(k, v)]
  | p :: rest, k, v => if p.1 == k then (k, v) :: rest else p :: kvPutMeta rest k v

/-- `kv.delete('meta:'+id)`. -/
def kvDelMeta (metas : MetaKV) (k : String) : MetaKV :=
  metas.filter (fun p => !(p.1 == k))

/-- `addHistoryEntry` (worker lines 346-363): filter out any existing entry
for the same id, unshift a fresh entry stamped `now`, best-effort update of
the file metadata (`lastAccessedAt := now`, `delete archivedAt`) skipped
when the record is missing or corrupt, then write the history list back.
Note: this version writes `filtered` without a `.slice(0, 100)`. -/
def addHistoryEntry (now : Int) (s : Store) (id filename src : String) : Store :=
  let filtered := s.history.filter (fun h => !(h.id == id))
  let newHistory := { id := id, filename := filename, src := src, viewedAt := now } :: filtered
  let metas' :=
    match kvGetMeta s.metas id with
    | some (some m) => kvPutMeta s.metas id (some { m with lastAccessedAt := some now, archivedAt := none })
    | _ => s.metas
  { s with history := newHistory, metas := metas' }

/-- `listAllMeta`: scan every `meta:*` key, skipping corrupt records. -/
def listAllMeta (metas : MetaKV) : List (String × Meta) :=
  metas.filterMap (fun p => p.2.map (fun m => (p.1, m)))

/-- `ARCHIVE_MS = 30 * 24 * 60 * 60 * 1000`. -/
def ARCHIVE_MS : Int := 30 * 24 * 60 * 60 * 1000

/-- `DELETE_MS = 60 * 24 * 60 * 60 * 1000`. -/
def DELETE_MS : Int := 60 * 24 * 60 * 60 * 1000

/-- `meta.lastAccessedAt || meta.created`. -/
def refTime (m : Meta) : Option Int :=
  match m.lastAccessedAt with
  | some t => some t
  | none => m.created

/-- One iteration of the `runRetention` loop, acting on the accumulated
store and list of deleted ids.  `continue` when neither timestamp exists;
delete the metadata key and the blob and record the id when the age
reaches `DELETE_MS`; stamp `archivedAt := now` when the age reaches
`ARCHIVE_MS` and no `archivedAt` is set; otherwise leave the record
alone. -/
def retentionStep (now : Int) (acc : Store × List String) (e : String × Meta) : Store × List String :=
  let s := acc.1
  let deleted := acc.2
  let id := e.1
  let meta := e.2
  match refTime meta with
  | none => (s, deleted)
  | some t =>
    if DELETE_MS ≤ now - t then
      ({ s with metas := kvDelMeta s.metas id,
                blobs := s.blobs.filter (fun b => !(b == id)) }, deleted ++ [id])
    else if ARCHIVE_MS ≤ now - t ∧ meta.archivedAt = none then
      ({ s with metas := kvPutMeta s.metas id (some { meta with archivedAt := some now }) }, deleted)
    else
      (s, deleted)

/-- `runRetention` (worker lines 411-439): snapshot all parsed metadata,
run the aging loop over it, then — only when at least one id was deleted —
rewrite the history list once, dropping entries for deleted ids.  The loop
consults nothing but the two timestamps: in particular it never reads the
`folders` list and never touches the `folderId` field. -/
def runRetention (now : Int) (s : Store) : Store :=
  let r := (listAllMeta s.metas).foldl (retentionStep now) (s, [])
  if r.2.length > 0 then
    { r.1 with history := r.1.history.filter (fun h => !(r.2.contains h.id)) }
  else r.1

/-- Typed failure of a route. -/
inductive Err where
  | notFound
deriving DecidableEq

/-- `DELETE /api/files/:id` (worker lines 623-634): unconditionally delete
the blob key and the metadata key, filter the id out of the history list,
and answer success — there is no existence check and no NotFound branch. -/
def deleteFileRoute (s : Store) (id : String) : Except Err Store :=
  .ok { s with blobs := s.blobs.filter (fun b => !(b == id)),
               metas := kvDelMeta s.metas id,
               history := s.history.filter (fun h => !(h.id == id)) }

/-- `DELETE /api/folders/:id` (worker lines 720-740): 404 when the folder
id is unknown; otherwise delete every member file's blob and metadata key,
rewrite the history list once dropping the members' entries (only when
the folder was non-empty), then drop the folder record itself. -/
def deleteFolderRoute (s : Store) (folderId : String) : Except Err Store :=
  match s.folders.find? (fun f => f.id == folderId) with
  | none => .error .notFound
  | some folder =>
    let s1 := folder.fileIds.foldl
      (fun st fid => { st with blobs := st.blobs.filter (fun b => !(b == fid)),
                               metas := kvDelMeta st.metas fid }) s
    let s2 :=
      if folder.fileIds.length > 0 then
        { s1 with history := s1.history.filter (fun h => !(folder.fileIds.contains h.id)) }
      else s1
    .ok { s2 with folders := s2.folders.filter (fun f => !(f.id == folderId)) }

/-- Modelled from the spec: the folder-membership operations `addFile` and
`move` of section 4.2.  The worker source contains no route implementing
them (the design document declares `POST /api/folders/:id/files` and the
move route, and the frontend calls them, but the backend bundle lacks
them), so they are embedded from the spec's words. -/
inductive FolderOp where
  | addFile (folderId fileId : String)
  | move (sourceFolderId fileId targetFolderId : String)
deriving DecidableEq

/-- Modelled from the spec: the per-folder rewrite performed by
`addFile(folderId, fileId)` — append the id to the target folder's
`fileIds`, remove it from every other folder's `fileIds`. -/
def addFileFolderUpdate (folderId fileId : String) (f : Folder) : Folder :=
  if f.id == folderId then { f with fileIds := f.fileIds ++ [fileId] }
  else { f with fileIds := f.fileIds.filter (fun g => !(g == fileId)) }

/-- Modelled from the spec: `addFile(folderId, fileId)` — NotFound if the
folder or the file metadata does not exist; otherwise remove `fileId` from
every other folder's `fileIds`, append it to the target folder, and set
the file metadata's `folderId` to the target. -/
def addFile (s : Store) (folderId fileId : String) : Except Err Store :=
  if !(s.folders.any (fun f => f.id == folderId)) then .error .notFound
  else
    match kvGetMeta s.metas fileId with
    | some (some m) =>
      .ok { s with
        folders := s.folders.map (addFileFolderUpdate folderId fileId),
        metas := kvPutMeta s.metas fileId (some { m with folderId := some folderId }) }
    | _ => .error .notFound

/-- Modelled from the spec: the per-folder rewrite performed by
`move(sourceFolderId, fileId, targetFolderId)` — remove the id from the
source folder, add it to the target folder (skipped when already
present). -/
def moveFolderUpdate (src fileId tgt : String) (f : Folder) : Folder :=
  let l1 := if f.id == src then f.fileIds.filter (fun g => !(g == fileId)) else f.fileIds
  let l2 := if f.id == tgt then (if l1.contains fileId then l1 else l1 ++ [fileId]) else l1
  { f with fileIds := l2 }

/-- Modelled from the spec: `move(sourceFolderId, fileId, targetFolderId)`
— NotFound if either folder is unknown; otherwise remove the id from the
source folder, add it to the target folder (skipped when already present),
and best-effort update the file metadata's `folderId` to the target. -/
def move (s : Store) (src fileId tgt : String) : Except Err Store :=
  if !(s.folders.any (fun f => f.id == src)) then .error .notFound
  else if !(s.folders.any (fun f => f.id == tgt)) then .error .notFound
  else
    let metas' :=
      match kvGetMeta s.metas fileId with
      | some (some m) => kvPutMeta s.metas fileId (some { m with folderId := some tgt })
      | _ => s.metas
    .ok { s with folders := s.folders.map (moveFolderUpdate src fileId tgt), metas := metas' }

/-- Run one folder operation; on a NotFound failure the store is
unchanged (both operations validate before mutating anything). -/
def applyFolderOp (s : Store) (op : FolderOp) : Store :=
  match op with
  | .addFile a b => match addFile s a b with | .ok s' => s' | .error _ => s
  | .move a b c => match move s a b c with | .ok s' => s' | .error _ => s

/-- Run a sequence of folder operations. -/
def runFolderOps (s : Store) (ops : List FolderOp) : Store :=
  ops.foldl applyFolderOp s

/-- One `recordView` request: the id viewed, the display name and
provenance snapshot, and the request's clock reading. -/
structure View where
  id : String
  filename : String
  src : String
  t : Int
deriving DecidableEq

/-- Run a sequence of views through `addHistoryEntry`. -/
def runViews (s : Store) (vs : List View) : Store :=
  vs.foldl (fun st v => addHistoryEntry v.t st v.id v.filename v.src) s

/-- `true` iff a metadata record for `fid` exists and parses. -/
def hasParsedMeta (s : Store) (fid : String) : Bool :=
  match kvGetMeta s.metas fid with
  | some (some _) => true
  | _ => false

/-- The `folderId` recorded on a file's parsed metadata, if any. -/
def metaFolderId (s : Store) (f : String) : Option String :=
  match kvGetMeta s.metas f with
  | some (some m) => m.folderId
  | _ => none

/-- The at-most-one-folder invariant for one file: `f` is a member of at
most one folder, and any folder that holds it is the one its metadata's
`folderId` names. -/
def fileInv (s : Store) (f : String) : Prop :=
  s.folders.countP (fun fd => fd.fileIds.contains f) ≤ 1 ∧
  ∀ fd ∈ s.folders, fd.fileIds.contains f = true → metaFolderId s f = some fd.id

/-- Side condition under which one folder operation keeps `fileInv`:
`addFile` needs none; `move` needs the moved file to have a parseable
metadata record and to be unfiled or filed only in the source or target
folder. -/
def opOK (s : Store) : FolderOp → Prop
  | .addFile _ _ => True
  | .move src fid tgt =>
      hasParsedMeta s fid = true ∧
      ∀ fd ∈ s.folders, fd.fileIds.contains fid = true → fd.id = src ∨ fd.id = tgt

/-- A sequence of folder operations each of which satisfies `opOK` in the
state where it runs. -/
inductive SeqOK : Store → List FolderOp → Prop where
  | nil (s : Store) : SeqOK s []
  | cons (s : Store) (op : FolderOp) (ops : List FolderOp) :
      opOK s op → SeqOK (applyFolderOp s op) ops → SeqOK s (op :: ops)

/-- `true` iff the record's age at `now` reaches the deletion threshold. -/
def isDeleteAge (now : Int) (m : Meta) : Bool :=
  match refTime m with
  | none => false
  | some t => DELETE_MS ≤ now - t

/-- `true` iff the record's age at `now` reaches the archive threshold. -/
def isArchiveAge (now : Int) (m : Meta) : Bool :=
  match refTime m with
  | none => false
  | some t => ARCHIVE_MS ≤ now - t

/-- The ids a retention pass over snapshot `l` deletes. -/
def delsOf (now : Int) (l : List (String × Meta)) : List String :=
  (l.filter (fun e => isDeleteAge now e.2)).map (fun e => e.1)

/-- The ids one retention sweep over `s` deletes. -/
def deletedIds (now : Int) (s : Store) : List String :=
  delsOf now (listAllMeta s.metas)

/-- A parsed record the sweep at `now` would leave untouched. -/
def settledMeta (now : Int) (m : Meta) : Prop :=
  match refTime m with
  | none => True
  | some t => now - t < DELETE_MS ∧ (ARCHIVE_MS ≤ now - t → m.archivedAt ≠ none)

/-- A file filed in the (existing) folder `f-1`, last accessed at time 0. -/
def exemptMeta : Meta :=
  { filename := "a.md", src := "upload", size := 1, created := some 0,
    lastAccessedAt := some 0, archivedAt := none, folderId := some "f-1" }

/-- Store with one file whose `folderId` names an existing folder that
still lists it, old enough to cross the deletion threshold. -/
def c1store : Store :=
  { blobs := ["a"], metas := [("a", some exemptMeta)], history := [],
    folders := [{ id := "f-1", name := "Work", fileIds := ["a"], created := 0 }] }

/-- A file whose `folderId` names a folder absent from the folder list. -/
def staleMeta : Meta :=
  { filename := "b.md", src := "paste", size := 1, created := some 0,
    lastAccessedAt := some 0, archivedAt := none, folderId := some "f-gone" }

/-- Store with one such file, old enough to cross the archive threshold. -/
def c3store : Store :=
  { blobs := ["b"], metas := [("b", some staleMeta)], history := [], folders := [] }

/-- A history list already holding 100 entries with distinct ids. -/
def hundredHist : List HistEntry :=
  (List.range 100).map (fun n => { id := toString n, filename := "f", src := "paste", viewedAt := 0 })

/-- Store whose history list is exactly at the documented 100-entry cap. -/
def c2store : Store :=
  { blobs := [], metas := [], history := hundredHist, folders := [] }

/-- Store for the C5 witness: one file created at time 0 and never
accessed, with its blob present and a lingering history entry. -/
def w5meta : Meta :=
  { filename := "w.md", src := "paste", size := 2, created := some 0,
    lastAccessedAt := none, archivedAt := none, folderId := none }

def w5store : Store :=
  { blobs := ["w"], metas := [("w", some w5meta)],
    history := [{ id := "w", filename := "w.md", src := "paste", viewedAt := 0 }],
    folders := [] }

/-- Store for the C6 witness: an already-archived record old enough to be
in the archive window but not the delete window. -/
def w6meta : Meta :=
  { filename := "w.md", src := "upload", size := 1, created := some 0,
    lastAccessedAt := some 0, archivedAt := some 7, folderId := none }

def w6store : Store :=
  { blobs := ["w"], metas := [("w", some w6meta)], history := [], folders := [] }

/-- Store for the C7 witness: one archived record. -/
def w7meta : Meta :=
  { filename := "w.md", src := "upload", size := 3, created := some 0,
    lastAccessedAt := some 1, archivedAt := some 2, folderId := none }

def w7store : Store :=
  { blobs := ["w"], metas := [("w", some w7meta)], history := [], folders := [] }

/-- Store for the C8 witness: empty history. -/
def w8store : Store := { blobs := [], metas := [], history := [], folders := [] }

/-- Store for the C9 witness: folder `f-1` holding file `a`, which has a
blob, a metadata record and a history entry. -/
def w9meta : Meta :=
  { filename := "a.md", src := "upload", size := 1, created := some 0,
    lastAccessedAt := some 0, archivedAt := none, folderId := some "f-1" }

def w9folder : Folder := { id := "f-1", name := "W", fileIds := ["a"], created := 0 }

def w9store : Store :=
  { blobs := ["a"], metas := [("a", some w9meta)],
    history := [{ id := "a", filename := "a.md", src := "upload", viewedAt := 0 }],
    folders := [w9folder] }

/-- Store for the C10 witness: the id `x` has no blob, no metadata record
and no history entry at all. -/
def w10store : Store :=
  { blobs := ["y"], metas := [("y", some w7meta)],
    history := [{ id := "y", filename := "y.md", src := "paste", viewedAt := 0 }],
    folders := [] }

instance fileInvDecidable (s : Store) (f : String) : Decidable (fileInv s f) := by
  unfold fileInv
  infer_instance

/-- Metadata record for the C4 stores. -/
def c4meta : Meta :=
  { filename := "a.md", src := "upload", size := 1, created := some 0,
    lastAccessedAt := some 0, archivedAt := none, folderId := none }

/-- Store for the C4 counterexample: three folders and one unfiled file. -/
def c4store : Store :=
  { blobs := ["a"], metas := [("a", some c4meta)], history := [],
    folders := [{ id := "f-x", name := "X", fileIds := [], created := 0 },
                { id := "f-s", name := "S", fileIds := [], created := 0 },
                { id := "f-t", name := "T", fileIds := [], created := 0 }] }

/-- Store for the C4 witness: two folders and one unfiled file. -/
def w4store : Store :=
  { blobs := ["a"], metas := [("a", some c4meta)], history := [],
    folders := [{ id := "f-s", name := "S", fileIds := [], created := 0 },
                { id := "f-t", name := "T", fileIds := [], created := 0 }] }

/-- C1: the sweep is claimed to exempt a file whose `folderId` names an
existing folder.  The embedded `runRetention` never consults the folder
list: at `now = DELETE_MS` it deletes the filed file's metadata record and
blob anyway. -/
theorem C1_filed_file_swept :
    kvGetMeta (runRetention DELETE_MS c1store).metas "a" = none ∧
    (runRetention DELETE_MS c1store).blobs = [] := by
  decide

/-- C3: the sweep is claimed to clear a stale `folderId` on the stored
metadata.  The embedded `runRetention` archives the record but writes it
back with `folderId` still `some "f-gone"`. -/
theorem C3_stale_folderId_kept :
    kvGetMeta (runRetention ARCHIVE_MS c3store).metas "b"
      = some (some { staleMeta with archivedAt := some ARCHIVE_MS }) := by
  decide

/-- C2: the stored history list is claimed to hold at most 100 entries
after every `recordView`.  The embedded `addHistoryEntry` (which writes
`filtered` back without a `.slice(0, 100)`) grows a 100-entry list to 101
on a view of a fresh id. -/
theorem C2_cap_dropped :
    (addHistoryEntry 1 c2store "fresh" "f" "paste").history.length = 101 := by
  decide

theorem kvGet_cons (p : String × Option Meta) (rest : MetaKV) (k : String) :
    kvGetMeta (p :: rest) k = if p.1 == k then some p.2 else kvGetMeta rest k := by
  by_cases h : p.1 == k <;> simp [kvGetMeta, List.find?_cons, h]

theorem kvGet_put_self (metas : MetaKV) (k : String) (v : Option Meta) :
    kvGetMeta (kvPutMeta metas k v) k = some v := by
  induction metas with
  | nil => simp [kvPutMeta, kvGetMeta, List.find?]
  | cons p rest ih =>
    by_cases h : p.1 == k
    · simp [kvPutMeta, h, kvGet_cons]
    · simp [kvPutMeta, h, kvGet_cons, ih]

theorem kvGet_put_other (metas : MetaKV) (k k' : String) (v : Option Meta) (h : ¬ k' = k) :
    kvGetMeta (kvPutMeta metas k v) k' = kvGetMeta metas k' := by
  induction metas with
  | nil =>
    simp [kvPutMeta, kvGetMeta, List.find?]
    simp [show (k == k') = false from by simpa using fun e => h e.symm]
  | cons p rest ih =>
    by_cases hp : p.1 == k
    · have hp' : p.1 = k := by simpa using hp
      simp [kvPutMeta, hp, kvGet_cons, hp', show (k == k') = false from by simpa using fun e => h e.symm]
    · simp [kvPutMeta, hp, kvGet_cons, ih]

theorem kvGet_del_self (metas : MetaKV) (k : String) :
    kvGetMeta (kvDelMeta metas k) k = none := by
  induction metas with
  | nil => simp [kvDelMeta, kvGetMeta, List.find?]
  | cons p rest ih =>
    by_cases h : p.1 == k
    · simpa [kvDelMeta, h] using ih
    · simpa [kvDelMeta, h, kvGet_cons] using ih

theorem kvGet_del_other (metas : MetaKV) (k k' : String) (h : ¬ k' = k) :
    kvGetMeta (kvDelMeta metas k) k' = kvGetMeta metas k' := by
  induction metas with
  | nil => simp [kvDelMeta]
  | cons p rest ih =>
    by_cases hp : p.1 == k
    · have hp' : p.1 = k := by simpa using hp
      have hne : (p.1 == k') = false := by simpa [hp'] using fun e => h e.symm
      simpa [kvDelMeta, hp, kvGet_cons, hne] using ih
    · by_cases hq : p.1 == k'
      · simp [kvDelMeta, hp, kvGet_cons, hq]
      · simpa [kvDelMeta, hp, kvGet_cons, hq] using ih

theorem mem_of_kvGet (metas : MetaKV) (k : String) (v : Option Meta)
    (h : kvGetMeta metas k = some v) : (k, v) ∈ metas := by
  unfold kvGetMeta at h
  obtain ⟨p, hfind, hv⟩ : ∃ p, metas.find? (fun q => q.1 == k) = some p ∧ p.2 = v := by
    cases hf : metas.find? (fun q => q.1 == k) with
    | none => simp [hf] at h
    | some p => exact ⟨p, rfl, by simpa [hf] using h⟩
  have hmem := List.mem_of_find?_eq_some hfind
  have hk : p.1 = k := by simpa using List.find?_some hfind
  have : p = (k, v) := by
    cases p
    simp_all
  rwa [this] at hmem

theorem kvGet_of_mem (metas : MetaKV) (k : String) (v : Option Meta)
    (hnd : (metas.map (fun p => p.1)).Nodup) (h : (k, v) ∈ metas) :
    kvGetMeta metas k = some v := by
  induction metas with
  | nil => simp at h
  | cons p rest ih =>
    rcases List.mem_cons.mp h with h1 | h1
    · simp [← h1, kvGet_cons]
    · have hk : k ∈ rest.map (fun p => p.1) :=
        List.mem_map.mpr ⟨(k, v), h1, rfl⟩
      have hne : ¬ p.1 = k := by
        intro e
        exact (List.nodup_cons.mp (by simpa using hnd)).1 (e ▸ hk)
      have : (p.1 == k) = false := by simpa using hne
      simp [kvGet_cons, this]
      exact ih (List.nodup_cons.mp (by simpa using hnd)).2 h1

theorem keys_put_mem (metas : MetaKV) (k : String) (v : Option Meta) :
    ∀ x ∈ (kvPutMeta metas k v).map (fun p => p.1), x ∈ metas.map (fun p => p.1) ∨ x = k := by
  induction metas with
  | nil => simp [kvPutMeta]
  | cons p rest ih =>
    by_cases h : p.1 == k
    · intro x hx
      simp only [kvPutMeta, h, if_pos] at hx
      rcases (by simpa using hx : x = k ∨ x ∈ rest.map (fun p => p.1)) with h1 | h1
      · exact Or.inr h1
      · exact Or.inl (by simp [h1])
    · intro x hx
      simp only [kvPutMeta, h, if_neg, Bool.false_eq_true, not_false_iff] at hx
      rcases (by simpa using hx : x = p.1 ∨ x ∈ (kvPutMeta rest k v).map (fun p => p.1)) with h1 | h1
      · exact Or.inl (by simp [h1])
      · rcases ih x h1 with h2 | h2
        · exact Or.inl (by simp; right; simpa using h2)
        · exact Or.inr h2

theorem keys_put_nodup (metas : MetaKV) (k : String) (v : Option Meta)
    (hnd : (metas.map (fun p => p.1)).Nodup) :
    ((kvPutMeta metas k v).map (fun p => p.1)).Nodup := by
  induction metas with
  | nil => simp [kvPutMeta]
  | cons p rest ih =>
    simp only [List.map_cons, List.nodup_cons] at hnd
    by_cases h : p.1 == k
    · have hk : p.1 = k := by simpa using h
      simp only [kvPutMeta, h, if_pos, List.map_cons, List.nodup_cons]
      exact ⟨by rw [← hk]; exact hnd.1, hnd.2⟩
    · have hk : ¬ p.1 = k := by simpa using h
      simp only [kvPutMeta, h, if_neg, Bool.false_eq_true, not_false_iff, List.map_cons,
        List.nodup_cons]
      refine ⟨fun hmem => ?_, ih hnd.2⟩
      rcases keys_put_mem rest k v p.1 hmem with h1 | h1
      · exact hnd.1 h1
      · exact hk h1

theorem keys_del_nodup (metas : MetaKV) (k : String)
    (hnd : (metas.map (fun p => p.1)).Nodup) :
    ((kvDelMeta metas k).map (fun p => p.1)).Nodup :=
  List.Nodup.sublist (List.Sublist.map (fun p => p.1) (List.filter_sublist metas)) hnd

theorem mem_put (metas : MetaKV) (k : String) (v : Option Meta) (q : String × Option Meta)
    (hnd : (metas.map (fun p => p.1)).Nodup) (h : q ∈ kvPutMeta metas k v) :
    (q ∈ metas ∧ ¬ q.1 = k) ∨ q = (k, v) := by
  induction metas with
  | nil => simp [kvPutMeta] at h; exact Or.inr (by cases q; simp_all)
  | cons p rest ih =>
    simp only [List.map_cons, List.nodup_cons] at hnd
    by_cases hp : p.1 == k
    · have hp' : p.1 = k := by simpa using hp
      simp only [kvPutMeta, hp, if_pos] at h
      rcases List.mem_cons.mp h with h1 | h1
      · exact Or.inr (by cases q; simp_all)
      · left
        refine ⟨List.mem_cons.mpr (Or.inr h1), fun e => ?_⟩
        have hqm : q.1 ∈ rest.map (fun p => p.1) := List.mem_map.mpr ⟨q, h1, rfl⟩
        rw [e, ← hp'] at hqm
        exact hnd.1 hqm
    · have hp' : ¬ p.1 = k := by simpa using hp
      simp only [kvPutMeta, hp, if_neg, Bool.false_eq_true, not_false_iff] at h
      rcases List.mem_cons.mp h with h1 | h1
      · exact Or.inl ⟨List.mem_cons.mpr (Or.inl h1), by rw [h1]; exact hp'⟩
      · rcases ih hnd.2 h1 with ⟨h2, h3⟩ | h2
        · exact Or.inl ⟨List.mem_cons.mpr (Or.inr h2), h3⟩
        · exact Or.inr h2

theorem mem_del (metas : MetaKV) (k : String) (q : String × Option Meta)
    (h : q ∈ kvDelMeta metas k) : q ∈ metas ∧ ¬ q.1 = k := by
  have := List.mem_filter.mp h
  exact ⟨this.1, by simpa using this.2⟩

theorem mem_listAllMeta (metas : MetaKV) (k : String) (m : Meta) :
    (k, m) ∈ listAllMeta metas ↔ (k, some m) ∈ metas := by
  constructor
  · intro h
    obtain ⟨p, hp, he⟩ := List.mem_filterMap.mp h
    cases p with
    | mk a b =>
      cases b with
      | none => simp at he
      | some m' =>
        have : a = k ∧ m' = m := by simpa using he
        rwa [this.1, this.2] at hp
  · intro h
    exact List.mem_filterMap.mpr ⟨(k, some m), h, rfl⟩

theorem keys_listAllMeta_sublist (metas : MetaKV) :
    List.Sublist ((listAllMeta metas).map (fun e => e.1)) (metas.map (fun p => p.1)) := by
  induction metas with
  | nil => simp [listAllMeta]
  | cons p rest ih =>
    cases hp : p.2 with
    | none => simpa [listAllMeta, hp] using ih.cons p.1
    | some m => simpa [listAllMeta, hp] using ih.cons₂ p.1

theorem nodup_key_unique {α : Type} (l : List (String × α)) (k : String) (a b : α)
    (hnd : (l.map (fun e => e.1)).Nodup) (ha : (k, a) ∈ l) (hb : (k, b) ∈ l) : a = b := by
  induction l with
  | nil => simp at ha
  | cons p rest ih =>
    simp only [List.map_cons, List.nodup_cons] at hnd
    rcases List.mem_cons.mp ha with h1 | h1 <;> rcases List.mem_cons.mp hb with h2 | h2
    · simpa using h1.trans h2.symm
    · exfalso
      apply hnd.1
      rw [← h1]
      exact List.mem_map.mpr ⟨(k, b), h2, rfl⟩
    · exfalso
      apply hnd.1
      rw [← h2]
      exact List.mem_map.mpr ⟨(k, a), h1, rfl⟩
    · exact ih hnd.2 h1 h2

theorem foldl_eq_init {α β : Type} (f : β → α → β) (l : List α)
    (h : ∀ e ∈ l, ∀ a, f a e = a) : ∀ init : β, l.foldl f init = init := by
  induction l with
  | nil => intro init; rfl
  | cons e rest ih =>
    intro init
    rw [List.foldl_cons, h e (List.mem_cons_self e rest) init]
    exact ih (fun e' he' => h e' (List.mem_cons_of_mem e he')) init

theorem delsOf_cons (now : Int) (e : String × Meta) (rest : List (String × Meta)) :
    delsOf now (e :: rest)
      = if isDeleteAge now e.2 then e.1 :: delsOf now rest else delsOf now rest := by
  by_cases h : isDeleteAge now e.2 <;> simp [delsOf, List.filter_cons, h]

theorem filter_blobs_comm (bl : List String) (id : String) (D : List String) :
    (bl.filter (fun b => !(b == id))).filter (fun b => !(D.contains b))
      = bl.filter (fun b => !((id :: D).contains b)) := by
  rw [List.filter_filter]
  apply List.filter_congr
  intro b _
  simp only [List.contains_cons, Bool.not_or]
  rw [Bool.and_comm]

theorem retentionLoop_spec (now : Int) (l : List (String × Meta)) :
    ∀ (s0 : Store) (d0 : List String), (l.map (fun e => e.1)).Nodup →
      (l.foldl (retentionStep now) (s0, d0)).1.history = s0.history ∧
      (l.foldl (retentionStep now) (s0, d0)).1.folders = s0.folders ∧
      (l.foldl (retentionStep now) (s0, d0)).2 = d0 ++ delsOf now l ∧
      (l.foldl (retentionStep now) (s0, d0)).1.blobs
        = s0.blobs.filter (fun b => !((delsOf now l).contains b)) ∧
      (∀ id : String, id ∉ l.map (fun e => e.1) →
        kvGetMeta (l.foldl (retentionStep now) (s0, d0)).1.metas id = kvGetMeta s0.metas id) ∧
      (∀ id m, (id, m) ∈ l →
        (isDeleteAge now m = true →
          kvGetMeta (l.foldl (retentionStep now) (s0, d0)).1.metas id = none) ∧
        (isDeleteAge now m = false → isArchiveAge now m = true → m.archivedAt = none →
          kvGetMeta (l.foldl (retentionStep now) (s0, d0)).1.metas id
            = some (some { m with archivedAt := some now })) ∧
        (isDeleteAge now m = false → (isArchiveAge now m = false ∨ m.archivedAt ≠ none) →
          kvGetMeta (l.foldl (retentionStep now) (s0, d0)).1.metas id = kvGetMeta s0.metas id)) := by
  induction l with
  | nil =>
    intro s0 d0 _
    refine ⟨rfl, rfl, by simp [delsOf], by simp [delsOf], fun id _ => rfl, fun id m h => ?_⟩
    simp at h
  | cons e rest ih =>
    intro s0 d0 hnd
    simp only [List.map_cons, List.nodup_cons] at hnd
    have hkey : ∀ id (m : Meta), (id, m) ∈ rest → ¬ id = e.1 := by
      intro id m hm he
      exact hnd.1 (he ▸ List.mem_map.mpr ⟨(id, m), hm, rfl⟩)
    cases hr : refTime e.2 with
    | none =>
      have hstep : retentionStep now (s0, d0) e = (s0, d0) := by
        simp [retentionStep, hr]
      have hdel : isDeleteAge now e.2 = false := by simp [isDeleteAge, hr]
      have harc : isArchiveAge now e.2 = false := by simp [isArchiveAge, hr]
      have ih' := ih s0 d0 hnd.2
      rw [List.foldl_cons, hstep]
      refine ⟨ih'.1, ih'.2.1, ?_, ?_, ?_, ?_⟩
      · rw [ih'.2.2.1, delsOf_cons, hdel]
        simp
      · rw [ih'.2.2.2.1, delsOf_cons, hdel]
        simp
      · intro id hid
        exact ih'.2.2.2.2.1 id (fun hm => hid (List.mem_cons_of_mem _ hm))
      · intro id m hm
        rcases List.mem_cons.mp hm with h1 | h1
        · have hid : id = e.1 := congrArg Prod.fst h1
          have hmm : m = e.2 := congrArg Prod.snd h1
          refine ⟨?_, ?_, ?_⟩
          · intro hcontra; rw [hmm, hdel] at hcontra; cases hcontra
          · intro _ hcontra; rw [hmm, harc] at hcontra; cases hcontra
          · intro _ _
            exact ih'.2.2.2.2.1 id (by rw [hid]; exact hnd.1)
        · exact ih'.2.2.2.2.2 id m h1
    | some t =>
      by_cases hd : DELETE_MS ≤ now - t
      · have hstep : retentionStep now (s0, d0) e
            = ({ s0 with metas := kvDelMeta s0.metas e.1, blobs := s0.blobs.filter (fun b => !(b == e.1)) }, d0 ++ [e.1]) := by
          simp [retentionStep, hr, hd]
        have hdel : isDeleteAge now e.2 = true := by simp [isDeleteAge, hr, hd]
        have ih' := ih { s0 with metas := kvDelMeta s0.metas e.1, blobs := s0.blobs.filter (fun b => !(b == e.1)) } (d0 ++ [e.1]) hnd.2
        rw [List.foldl_cons, hstep]
        refine ⟨ih'.1, ih'.2.1, ?_, ?_, ?_, ?_⟩
        · rw [ih'.2.2.1, delsOf_cons, hdel]
          simp
        · rw [ih'.2.2.2.1, delsOf_cons, hdel]
          simpa using filter_blobs_comm s0.blobs e.1 (delsOf now rest)
        · intro id hid
          have hne : ¬ id = e.1 := fun he => hid (by simp [he])
          rw [ih'.2.2.2.2.1 id (fun hm => hid (List.mem_cons_of_mem _ hm))]
          exact kvGet_del_other s0.metas e.1 id hne
        · intro id m hm
          rcases List.mem_cons.mp hm with h1 | h1
          · have hid : id = e.1 := congrArg Prod.fst h1
            have hmm : m = e.2 := congrArg Prod.snd h1
            refine ⟨?_, ?_, ?_⟩
            · intro _
              rw [ih'.2.2.2.2.1 id (by rw [hid]; exact hnd.1), hid]
              exact kvGet_del_self s0.metas e.1
            · intro hcontra
              rw [hmm, hdel] at hcontra; cases hcontra
            · intro hcontra
              rw [hmm, hdel] at hcontra; cases hcontra
          · have h3 := ih'.2.2.2.2.2 id m h1
            refine ⟨h3.1, h3.2.1, ?_⟩
            intro hx hy
            rw [h3.2.2 hx hy]
            exact kvGet_del_other s0.metas e.1 id (hkey id m h1)
      · by_cases ha : ARCHIVE_MS ≤ now - t ∧ e.2.archivedAt = none
        · have hstep : retentionStep now (s0, d0) e
              = ({ s0 with metas := kvPutMeta s0.metas e.1 (some { e.2 with archivedAt := some now }) }, d0) := by
            simp [retentionStep, hr, hd, ha]
          have hdel : isDeleteAge now e.2 = false := by simp [isDeleteAge, hr, hd]
          have harc : isArchiveAge now e.2 = true := by simp [isArchiveAge, hr, ha.1]
          have ih' := ih { s0 with metas := kvPutMeta s0.metas e.1 (some { e.2 with archivedAt := some now }) } d0 hnd.2
          rw [List.foldl_cons, hstep]
          refine ⟨ih'.1, ih'.2.1, ?_, ?_, ?_, ?_⟩
          · rw [ih'.2.2.1, delsOf_cons, hdel]
            simp
          · rw [ih'.2.2.2.1, delsOf_cons, hdel]
            simp
          · intro id hid
            have hne : ¬ id = e.1 := fun he => hid (by simp [he])
            rw [ih'.2.2.2.2.1 id (fun hm => hid (List.mem_cons_of_mem _ hm))]
            exact kvGet_put_other s0.metas e.1 id _ hne
          · intro id m hm
            rcases List.mem_cons.mp hm with h1 | h1
            · have hid : id = e.1 := congrArg Prod.fst h1
              have hmm : m = e.2 := congrArg Prod.snd h1
              refine ⟨?_, ?_, ?_⟩
              · intro hcontra; rw [hmm, hdel] at hcontra; cases hcontra
              · intro _ _ _
                rw [ih'.2.2.2.2.1 id (by rw [hid]; exact hnd.1), hid, hmm]
                exact kvGet_put_self s0.metas e.1 _
              · intro _ hy
                exfalso
                rcases hy with hy | hy
                · rw [hmm, harc] at hy; cases hy
                · exact hy (hmm ▸ ha.2)
            · have h3 := ih'.2.2.2.2.2 id m h1
              refine ⟨h3.1, h3.2.1, ?_⟩
              intro hx hy
              rw [h3.2.2 hx hy]
              exact kvGet_put_other s0.metas e.1 id _ (hkey id m h1)
        · have hstep : retentionStep now (s0, d0) e = (s0, d0) := by
            simp [retentionStep, hr, hd, ha]
          have hdel : isDeleteAge now e.2 = false := by simp [isDeleteAge, hr, hd]
          have ih' := ih s0 d0 hnd.2
          rw [List.foldl_cons, hstep]
          refine ⟨ih'.1, ih'.2.1, ?_, ?_, ?_, ?_⟩
          · rw [ih'.2.2.1, delsOf_cons, hdel]
            simp
          · rw [ih'.2.2.2.1, delsOf_cons, hdel]
            simp
          · intro id hid
            exact ih'.2.2.2.2.1 id (fun hm => hid (List.mem_cons_of_mem _ hm))
          · intro id m hm
            rcases List.mem_cons.mp hm with h1 | h1
            · have hid : id = e.1 := congrArg Prod.fst h1
              have hmm : m = e.2 := congrArg Prod.snd h1
              refine ⟨?_, ?_, ?_⟩
              · intro hcontra; rw [hmm, hdel] at hcontra; cases hcontra
              · intro _ hy hz
                exfalso
                apply ha
                constructor
                · have harc2 : isArchiveAge now e.2 = true := hmm ▸ hy
                  simpa [isArchiveAge, hr] using harc2
                · exact hmm ▸ hz
              · intro _ _
                exact ih'.2.2.2.2.1 id (by rw [hid]; exact hnd.1)
            · exact ih'.2.2.2.2.2 id m h1

theorem runRetention_metas (now : Int) (s : Store) :
    (runRetention now s).metas
      = ((listAllMeta s.metas).foldl (retentionStep now) (s, [])).1.metas := by
  simp only [runRetention]
  split <;> rfl

theorem runRetention_blobs (now : Int) (s : Store) :
    (runRetention now s).blobs
      = ((listAllMeta s.metas).foldl (retentionStep now) (s, [])).1.blobs := by
  simp only [runRetention]
  split <;> rfl

theorem runRetention_folders (now : Int) (s : Store) :
    (runRetention now s).folders
      = ((listAllMeta s.metas).foldl (retentionStep now) (s, [])).1.folders := by
  simp only [runRetention]
  split <;> rfl

theorem snapshot_keys_nodup (s : Store) (hnd : (s.metas.map (fun p => p.1)).Nodup) :
    ((listAllMeta s.metas).map (fun e => e.1)).Nodup :=
  List.Nodup.sublist (keys_listAllMeta_sublist s.metas) hnd

theorem settled_of_refTime_none (now : Int) (m : Meta) (h : refTime m = none) :
    settledMeta now m := by
  simp [settledMeta, h]

theorem settled_of_bounds (now : Int) (m : Meta) (t : Int) (h : refTime m = some t)
    (h1 : now - t < DELETE_MS) (h2 : ARCHIVE_MS ≤ now - t → m.archivedAt ≠ none) :
    settledMeta now m := by
  simp only [settledMeta, h]
  exact ⟨h1, h2⟩

theorem runRetention_of_settled (now : Int) (s : Store)
    (h : ∀ id m, (id, some m) ∈ s.metas → settledMeta now m) :
    runRetention now s = s := by
  have hstep : ∀ e ∈ listAllMeta s.metas, ∀ acc : Store × List String,
      retentionStep now acc e = acc := by
    intro e he acc
    have hmem : (e.1, some e.2) ∈ s.metas := by
      refine (mem_listAllMeta s.metas e.1 e.2).mp ?_
      cases e
      exact he
    have hs := h e.1 e.2 hmem
    cases hr : refTime e.2 with
    | none => simp [retentionStep, hr]
    | some t =>
      simp only [settledMeta, hr] at hs
      have h1 : ¬ DELETE_MS ≤ now - t := by omega
      have h2 : ¬ (ARCHIVE_MS ≤ now - t ∧ e.2.archivedAt = none) := by
        rintro ⟨ha, hb⟩
        exact hs.2 ha hb
      simp [retentionStep, hr, h1, h2]
  have hfold := foldl_eq_init (retentionStep now) (listAllMeta s.metas) hstep (s, [])
  simp only [runRetention, hfold]
  simp

theorem retentionLoop_settled (now : Int) (l : List (String × Meta)) :
    ∀ (s0 : Store) (d0 : List String),
      (s0.metas.map (fun p => p.1)).Nodup →
      (∀ id m, (id, some m) ∈ s0.metas → settledMeta now m ∨ (id, m) ∈ l) →
      ∀ id m, (id, some m) ∈ (l.foldl (retentionStep now) (s0, d0)).1.metas →
        settledMeta now m := by
  induction l with
  | nil =>
    intro s0 d0 hnd h id m hm
    rcases h id m hm with h1 | h1
    · exact h1
    · simp at h1
  | cons e rest ih =>
    intro s0 d0 hnd h id m hm
    cases hr : refTime e.2 with
    | none =>
      have hstep : retentionStep now (s0, d0) e = (s0, d0) := by simp [retentionStep, hr]
      rw [List.foldl_cons, hstep] at hm
      refine ih s0 d0 hnd ?_ id m hm
      intro id' m' hm'
      rcases h id' m' hm' with h1 | h1
      · exact Or.inl h1
      · rcases List.mem_cons.mp h1 with h2 | h2
        · left
          have hmm : m' = e.2 := congrArg Prod.snd h2
          exact settled_of_refTime_none now m' (by rw [hmm]; exact hr)
        · exact Or.inr h2
    | some t =>
      by_cases hd : DELETE_MS ≤ now - t
      · have hstep : retentionStep now (s0, d0) e
            = ({ s0 with metas := kvDelMeta s0.metas e.1, blobs := s0.blobs.filter (fun b => !(b == e.1)) }, d0 ++ [e.1]) := by
          simp [retentionStep, hr, hd]
        rw [List.foldl_cons, hstep] at hm
        refine ih _ _ (keys_del_nodup s0.metas e.1 hnd) ?_ id m hm
        intro id' m' hm'
        have hdm := mem_del s0.metas e.1 (id', some m') hm'
        rcases h id' m' hdm.1 with h1 | h1
        · exact Or.inl h1
        · rcases List.mem_cons.mp h1 with h2 | h2
          · exact absurd (congrArg Prod.fst h2) hdm.2
          · exact Or.inr h2
      · by_cases ha : ARCHIVE_MS ≤ now - t ∧ e.2.archivedAt = none
        · have hstep : retentionStep now (s0, d0) e
              = ({ s0 with metas := kvPutMeta s0.metas e.1 (some { e.2 with archivedAt := some now }) }, d0) := by
            simp [retentionStep, hr, hd, ha]
          rw [List.foldl_cons, hstep] at hm
          refine ih _ _ (keys_put_nodup s0.metas e.1 _ hnd) ?_ id m hm
          intro id' m' hm'
          rcases mem_put s0.metas e.1 _ (id', some m') hnd hm' with ⟨h1, h2⟩ | h1
          · rcases h id' m' h1 with h3 | h3
            · exact Or.inl h3
            · rcases List.mem_cons.mp h3 with h4 | h4
              · exact absurd (congrArg Prod.fst h4) h2
              · exact Or.inr h4
          · left
            have hm' : m' = { e.2 with archivedAt := some now } := by
              have := congrArg Prod.snd h1
              simpa using this
            refine settled_of_bounds now m' t ?_ (by omega) ?_
            · rw [hm']
              simpa [refTime] using hr
            · intro _
              rw [hm']
              simp
        · have hstep : retentionStep now (s0, d0) e = (s0, d0) := by
            simp [retentionStep, hr, hd, ha]
          rw [List.foldl_cons, hstep] at hm
          refine ih s0 d0 hnd ?_ id m hm
          intro id' m' hm'
          rcases h id' m' hm' with h1 | h1
          · exact Or.inl h1
          · rcases List.mem_cons.mp h1 with h2 | h2
            · left
              have hmm : m' = e.2 := congrArg Prod.snd h2
              refine settled_of_bounds now m' t (by rw [hmm]; exact hr) (by omega) ?_
              intro harc hnone
              exact ha ⟨harc, by rw [← hmm]; exact hnone⟩
            · exact Or.inr h2

theorem runRetention_settled (now : Int) (s : Store)
    (hnd : (s.metas.map (fun p => p.1)).Nodup) :
    ∀ id m, (id, some m) ∈ (runRetention now s).metas → settledMeta now m := by
  intro id m hm
  rw [runRetention_metas] at hm
  exact retentionLoop_settled now (listAllMeta s.metas) s [] hnd
    (fun id' m' h => Or.inr ((mem_listAllMeta s.metas id' m').mpr h)) id m hm

theorem runRetention_history_spec (now : Int) (s : Store)
    (hnd : (s.metas.map (fun p => p.1)).Nodup) :
    (runRetention now s).history
      = s.history.filter (fun h => !((deletedIds now s).contains h.id)) := by
  have hspec := retentionLoop_spec now (listAllMeta s.metas) s [] (snapshot_keys_nodup s hnd)
  have hK2 : ((listAllMeta s.metas).foldl (retentionStep now) (s, [])).2 = deletedIds now s := by
    rw [hspec.2.2.1]
    simp [deletedIds]
  simp only [runRetention]
  split
  · rw [hspec.1, hK2]
  next hneg =>
    have hlen : ((listAllMeta s.metas).foldl (retentionStep now) (s, [])).2.length = 0 := by
      omega
    have hnil : deletedIds now s = [] := by
      rw [← hK2]
      exact List.length_eq_zero.mp hlen
    rw [hspec.1, hnil]
    simp

/-- C5: for every parsed metadata record the sweep derives its reference
time as `lastAccessedAt` if present else `created` (the `refTime` of the
record); when neither exists the record is skipped entirely (metadata and
blob untouched); when `now` minus the reference time is at least
`DELETE_MS` the sweep deletes the blob and the metadata record and drops
every history entry of that id; and the final history list is the original
rewritten once, filtered by the batch of deleted ids. -/
theorem retention_delete_and_batch_cleanup (now : Int) (s : Store)
    (hnd : (s.metas.map (fun p => p.1)).Nodup) (id : String) (m : Meta)
    (hget : kvGetMeta s.metas id = some (some m)) :
    (refTime m = none →
      kvGetMeta (runRetention now s).metas id = some (some m) ∧
      (id ∈ s.blobs → id ∈ (runRetention now s).blobs)) ∧
    (∀ t, refTime m = some t → DELETE_MS ≤ now - t →
      kvGetMeta (runRetention now s).metas id = none ∧
      id ∉ (runRetention now s).blobs ∧
      ∀ h ∈ (runRetention now s).history, ¬ h.id = id) ∧
    (runRetention now s).history
      = s.history.filter (fun h => !((deletedIds now s).contains h.id)) := by
  have hmem : (id, some m) ∈ s.metas := mem_of_kvGet s.metas id (some m) hget
  have hsnap : (id, m) ∈ listAllMeta s.metas := (mem_listAllMeta s.metas id m).mpr hmem
  have hndsnap := snapshot_keys_nodup s hnd
  have hspec := retentionLoop_spec now (listAllMeta s.metas) s [] hndsnap
  refine ⟨?_, ?_, runRetention_history_spec now s hnd⟩
  · intro hrt
    have hdel : isDeleteAge now m = false := by simp [isDeleteAge, hrt]
    have harc : isArchiveAge now m = false := by simp [isArchiveAge, hrt]
    constructor
    · rw [runRetention_metas, (hspec.2.2.2.2.2 id m hsnap).2.2 hdel (Or.inl harc)]
      exact hget
    · intro hb
      rw [runRetention_blobs, hspec.2.2.2.1]
      refine List.mem_filter.mpr ⟨hb, ?_⟩
      have hnotin : id ∉ delsOf now (listAllMeta s.metas) := by
        intro hin
        obtain ⟨⟨a, b⟩, he, heq⟩ := List.mem_map.mp hin
        have heq' : a = id := heq
        have hef := List.mem_filter.mp he
        have hab : (id, b) ∈ listAllMeta s.metas := heq' ▸ hef.1
        have hbm : b = m := nodup_key_unique (listAllMeta s.metas) id b m hndsnap hab hsnap
        have hd2 : isDeleteAge now b = true := by simpa using hef.2
        rw [hbm, hdel] at hd2
        cases hd2
      simpa using hnotin
  · intro t hrt hage
    have hdel : isDeleteAge now m = true := by simp [isDeleteAge, hrt, hage]
    have hin : id ∈ delsOf now (listAllMeta s.metas) :=
      List.mem_map.mpr ⟨(id, m), List.mem_filter.mpr ⟨hsnap, by simpa using hdel⟩, rfl⟩
    refine ⟨?_, ?_, ?_⟩
    · rw [runRetention_metas]
      exact (hspec.2.2.2.2.2 id m hsnap).1 hdel
    · intro hb
      rw [runRetention_blobs, hspec.2.2.2.1] at hb
      have hpred := (List.mem_filter.mp hb).2
      simp at hpred
      exact hpred hin
    · intro h hh
      rw [runRetention_history_spec now s hnd] at hh
      have hpred := (List.mem_filter.mp hh).2
      simp at hpred
      intro he
      exact hpred (by rw [he]; exact hin)

/-- Witness for C5 at a concrete input: at `now = DELETE_MS` the sweep
removes the record, the blob and the history entry. -/
theorem retention_delete_and_batch_cleanup_witness :
    kvGetMeta (runRetention DELETE_MS w5store).metas "w" = none ∧
    "w" ∉ (runRetention DELETE_MS w5store).blobs ∧
    (runRetention DELETE_MS w5store).history
      = w5store.history.filter (fun h => !((deletedIds DELETE_MS w5store).contains h.id)) := by
  have h := retention_delete_and_batch_cleanup DELETE_MS w5store (by decide) "w" w5meta (by decide)
  have hdel := h.2.1 0 (by decide) (by decide)
  exact ⟨hdel.1, hdel.2.1, h.2.2⟩

/-- C6: the retention sweep is idempotent — a second run at the same clock
reading is the identity on the state the first run produced — and a record
that already carries `archivedAt` (and is not old enough to delete) is
left untouched, so its original archive timestamp survives repeated
sweeps.  Every mutation of the embedded sweep is total: deleting a key
that is already gone is a no-op, never an error. -/
theorem retention_sweep_idempotent (now : Int) (s : Store)
    (hnd : (s.metas.map (fun p => p.1)).Nodup) :
    runRetention now (runRetention now s) = runRetention now s ∧
    ∀ id m, kvGetMeta s.metas id = some (some m) → m.archivedAt ≠ none →
      isDeleteAge now m = false →
      kvGetMeta (runRetention now s).metas id = some (some m) := by
  constructor
  · exact runRetention_of_settled now (runRetention now s) (runRetention_settled now s hnd)
  · intro id m hget hne hdel
    have hmem : (id, some m) ∈ s.metas := mem_of_kvGet s.metas id (some m) hget
    have hsnap : (id, m) ∈ listAllMeta s.metas := (mem_listAllMeta s.metas id m).mpr hmem
    have hspec := retentionLoop_spec now (listAllMeta s.metas) s [] (snapshot_keys_nodup s hnd)
    rw [runRetention_metas, (hspec.2.2.2.2.2 id m hsnap).2.2 hdel (Or.inr hne)]
    exact hget

/-- Witness for C6 at a concrete input: the double sweep equals the single
sweep, and the archived record keeps its original `archivedAt = 7`. -/
theorem retention_sweep_idempotent_witness :
    runRetention ARCHIVE_MS (runRetention ARCHIVE_MS w6store) = runRetention ARCHIVE_MS w6store ∧
    kvGetMeta (runRetention ARCHIVE_MS w6store).metas "w" = some (some w6meta) :=
  ⟨(retention_sweep_idempotent ARCHIVE_MS w6store (by decide)).1,
   (retention_sweep_idempotent ARCHIVE_MS w6store (by decide)).2 "w" w6meta
     (by decide) (by decide) (by decide)⟩

theorem addHistoryEntry_history_eq (now : Int) (s : Store) (id fn sc : String) :
    (addHistoryEntry now s id fn sc).history
      = { id := id, filename := fn, src := sc, viewedAt := now }
          :: s.history.filter (fun h => !(h.id == id)) := rfl

/-- C7: when the metadata record for the viewed id exists and parses,
`addHistoryEntry` rewrites it with `lastAccessedAt` set to the request
clock and `archivedAt` removed; when the record is missing or corrupt the
metadata is left exactly as it was; in every case the history write still
proceeds (fresh entry at the front, older entry for the id dropped). -/
theorem recordView_updates_metadata (now : Int) (s : Store) (id fn sc : String) :
    (∀ m, kvGetMeta s.metas id = some (some m) →
      kvGetMeta (addHistoryEntry now s id fn sc).metas id
        = some (some { m with lastAccessedAt := some now, archivedAt := none })) ∧
    ((kvGetMeta s.metas id = none ∨ kvGetMeta s.metas id = some none) →
      (addHistoryEntry now s id fn sc).metas = s.metas) ∧
    (addHistoryEntry now s id fn sc).history
      = { id := id, filename := fn, src := sc, viewedAt := now }
          :: s.history.filter (fun h => !(h.id == id)) := by
  refine ⟨?_, ?_, rfl⟩
  · intro m hm
    simp only [addHistoryEntry, hm]
    exact kvGet_put_self s.metas id _
  · rintro (h | h) <;> simp [addHistoryEntry, h]

/-- Witness for C7 at a concrete input: viewing the archived file stamps
`lastAccessedAt := 9` and clears `archivedAt`. -/
theorem recordView_updates_metadata_witness :
    kvGetMeta (addHistoryEntry 9 w7store "w" "w.md" "upload").metas "w"
      = some (some { w7meta with lastAccessedAt := some 9, archivedAt := none }) :=
  (recordView_updates_metadata 9 w7store "w" "w.md" "upload").1 w7meta (by decide)

theorem runViews_cons (s : Store) (v : View) (vs : List View) :
    runViews s (v :: vs) = runViews (addHistoryEntry v.t s v.id v.filename v.src) vs := rfl

theorem nodup_ids_after_view (now : Int) (s : Store) (id fn sc : String)
    (h : (s.history.map (fun e => e.id)).Nodup) :
    (((addHistoryEntry now s id fn sc).history).map (fun e => e.id)).Nodup := by
  rw [addHistoryEntry_history_eq]
  simp only [List.map_cons, List.nodup_cons]
  refine ⟨?_, List.Nodup.sublist (List.Sublist.map _ (List.filter_sublist _)) h⟩
  intro hmem
  obtain ⟨e, he, heq⟩ := List.mem_map.mp hmem
  have hpred := (List.mem_filter.mp he).2
  simp at hpred
  exact hpred heq

theorem runViews_nodup (s : Store) (vs : List View)
    (h : (s.history.map (fun e => e.id)).Nodup) :
    (((runViews s vs).history).map (fun e => e.id)).Nodup := by
  induction vs generalizing s with
  | nil => exact h
  | cons v rest ih =>
    rw [runViews_cons]
    exact ih _ (nodup_ids_after_view v.t s v.id v.filename v.src h)

/-- C8: starting from a history with at most one entry per id, any
sequence of `recordView` calls keeps at most one entry per id; and after
one further view of `v` the history holds the fresh entry for `v.id` at
the front, stamped with the view's clock, and exactly one entry for that
id in total. -/
theorem history_dedup_and_front (s : Store) (vs : List View)
    (hnd : (s.history.map (fun e => e.id)).Nodup) :
    (((runViews s vs).history).map (fun e => e.id)).Nodup ∧
    ∀ v : View,
      (runViews s (vs ++ [v])).history.head?
        = some { id := v.id, filename := v.filename, src := v.src, viewedAt := v.t } ∧
      (runViews s (vs ++ [v])).history.countP (fun e => e.id == v.id) = 1 := by
  refine ⟨runViews_nodup s vs hnd, ?_⟩
  intro v
  have hrw : runViews s (vs ++ [v])
      = addHistoryEntry v.t (runViews s vs) v.id v.filename v.src := by
    simp [runViews, List.foldl_append]
  constructor
  · rw [hrw, addHistoryEntry_history_eq]
    rfl
  · rw [hrw, addHistoryEntry_history_eq]
    rw [List.countP_cons_of_pos _ _ (by simp)]
    have hzero : List.countP (fun e => e.id == v.id)
        (List.filter (fun h => !(h.id == v.id)) (runViews s vs).history) = 0 := by
      rw [List.countP_eq_zero]
      intro e he
      have hpred := (List.mem_filter.mp he).2
      simpa using hpred
    rw [hzero]

/-- Witness for C8 at a concrete input: after viewing id `a` twice, the
second view's entry is at the front and the list holds exactly one entry
for `a`. -/
theorem history_dedup_and_front_witness :
    (runViews w8store ([{ id := "a", filename := "a.md", src := "paste", t := 1 }]
        ++ [{ id := "a", filename := "b.md", src := "paste", t := 2 }])).history.head?
      = some { id := "a", filename := "b.md", src := "paste", viewedAt := 2 } ∧
    (runViews w8store ([{ id := "a", filename := "a.md", src := "paste", t := 1 }]
        ++ [{ id := "a", filename := "b.md", src := "paste", t := 2 }])).history.countP
        (fun e => e.id == "a") = 1 :=
  (history_dedup_and_front w8store [{ id := "a", filename := "a.md", src := "paste", t := 1 }]
    (by decide)).2 { id := "a", filename := "b.md", src := "paste", t := 2 }

theorem kvGet_del_none (metas : MetaKV) (k k' : String)
    (h : kvGetMeta metas k' = none) : kvGetMeta (kvDelMeta metas k) k' = none := by
  by_cases he : k' = k
  · rw [he]
    exact kvGet_del_self metas k
  · rw [kvGet_del_other metas k k' he]
    exact h

theorem cascade_fold_spec (l : List String) :
    ∀ s0 : Store,
      (l.foldl (fun st fid => { st with blobs := st.blobs.filter (fun b => !(b == fid)), metas := kvDelMeta st.metas fid }) s0).history = s0.history ∧
      (l.foldl (fun st fid => { st with blobs := st.blobs.filter (fun b => !(b == fid)), metas := kvDelMeta st.metas fid }) s0).folders = s0.folders ∧
      (∀ g : String, kvGetMeta s0.metas g = none →
        kvGetMeta (l.foldl (fun st fid => { st with blobs := st.blobs.filter (fun b => !(b == fid)), metas := kvDelMeta st.metas fid }) s0).metas g = none) ∧
      (∀ g : String, g ∉ s0.blobs →
        g ∉ (l.foldl (fun st fid => { st with blobs := st.blobs.filter (fun b => !(b == fid)), metas := kvDelMeta st.metas fid }) s0).blobs) ∧
      (∀ g ∈ l,
        kvGetMeta (l.foldl (fun st fid => { st with blobs := st.blobs.filter (fun b => !(b == fid)), metas := kvDelMeta st.metas fid }) s0).metas g = none ∧
        g ∉ (l.foldl (fun st fid => { st with blobs := st.blobs.filter (fun b => !(b == fid)), metas := kvDelMeta st.metas fid }) s0).blobs) := by
  induction l with
  | nil =>
    intro s0
    exact ⟨rfl, rfl, fun g h => h, fun g h => h, fun g h => absurd h (List.not_mem_nil g)⟩
  | cons f rest ih =>
    intro s0
    rw [List.foldl_cons]
    have ih' := ih { s0 with blobs := s0.blobs.filter (fun b => !(b == f)), metas := kvDelMeta s0.metas f }
    refine ⟨ih'.1, ih'.2.1, ?_, ?_, ?_⟩
    · intro g hg
      exact ih'.2.2.1 g (kvGet_del_none s0.metas f g hg)
    · intro g hg
      refine ih'.2.2.2.1 g ?_
      intro hmem
      exact hg (List.mem_of_mem_filter hmem)
    · intro g hg
      rcases List.mem_cons.mp hg with h1 | h1
      · constructor
        · refine ih'.2.2.1 g ?_
          rw [h1]
          exact kvGet_del_self s0.metas f
        · refine ih'.2.2.2.1 g ?_
          intro hmem
          have hpred := (List.mem_filter.mp hmem).2
          rw [h1] at hpred
          simp at hpred
      · exact ih'.2.2.2.2 g h1

/-- C9: `DELETE /api/folders/:id` fails with NotFound exactly when the
folder id is unknown; otherwise it returns a state in which every member
file's metadata record and blob are gone, the history list is the
original rewritten once with all member ids' entries dropped, and the
folder record itself is removed from the folder list. -/
theorem folder_delete_cascade (s : Store) (fid : String) :
    (s.folders.find? (fun f => f.id == fid) = none →
      deleteFolderRoute s fid = .error .notFound) ∧
    (∀ folder, s.folders.find? (fun f => f.id == fid) = some folder →
      ∃ s', deleteFolderRoute s fid = .ok s' ∧
        (∀ g ∈ folder.fileIds, kvGetMeta s'.metas g = none ∧ g ∉ s'.blobs) ∧
        s'.history = s.history.filter (fun h => !(folder.fileIds.contains h.id)) ∧
        s'.folders = s.folders.filter (fun f => !(f.id == fid))) := by
  constructor
  · intro hfind
    simp [deleteFolderRoute, hfind]
  · intro folder hfind
    have hc := cascade_fold_spec folder.fileIds s
    set F := folder.fileIds.foldl (fun st fid => { st with blobs := st.blobs.filter (fun b => !(b == fid)), metas := kvDelMeta st.metas fid }) s with hF
    refine ⟨{ blobs := F.blobs, metas := F.metas, history := F.history.filter (fun h => !(folder.fileIds.contains h.id)), folders := F.folders.filter (fun f => !(f.id == fid)) }, ?_, ?_, ?_, ?_⟩
    · by_cases hlen : folder.fileIds.length > 0
      · simp [deleteFolderRoute, hfind, hlen, hF]
      · have hnil : folder.fileIds = [] := List.length_eq_zero.mp (by omega)
        simp [deleteFolderRoute, hfind, hlen, hF, hnil]
    · intro g hg
      exact hc.2.2.2.2 g hg
    · rw [show ({ blobs := F.blobs, metas := F.metas, history := F.history.filter (fun h => !(folder.fileIds.contains h.id)), folders := F.folders.filter (fun f => !(f.id == fid)) } : Store).history = F.history.filter (fun h => !(folder.fileIds.contains h.id)) from rfl, hc.1]
    · rw [show ({ blobs := F.blobs, metas := F.metas, history := F.history.filter (fun h => !(folder.fileIds.contains h.id)), folders := F.folders.filter (fun f => !(f.id == fid)) } : Store).folders = F.folders.filter (fun f => !(f.id == fid)) from rfl, hc.2.1]

/-- Witness for C9 at a concrete input: deleting folder `f-1` succeeds and
removes member `a`'s metadata, blob, history entry and the folder record. -/
theorem folder_delete_cascade_witness :
    ∃ s', deleteFolderRoute w9store "f-1" = Except.ok s' ∧
      kvGetMeta s'.metas "a" = none ∧ "a" ∉ s'.blobs ∧
      s'.history = [] ∧ s'.folders = [] := by
  obtain ⟨s', hok, hmem, hhist, hfold⟩ :=
    (folder_delete_cascade w9store "f-1").2 w9folder (by decide)
  refine ⟨s', hok, (hmem "a" (by decide)).1, (hmem "a" (by decide)).2, ?_, ?_⟩
  · rw [hhist]
    decide
  · rw [hfold]
    decide

/-- C10 (implicit): `DELETE /api/files/:id` never fails — for every id,
present or not, it returns success with the blob key deleted, the
metadata key deleted and the id filtered out of the history list, and a
second call on the produced state returns that state unchanged. -/
theorem file_delete_total_and_idempotent (s : Store) (id : String) :
    (deleteFileRoute s id).isOk = true ∧
    ∀ s', deleteFileRoute s id = .ok s' →
      kvGetMeta s'.metas id = none ∧
      id ∉ s'.blobs ∧
      (∀ h ∈ s'.history, ¬ h.id = id) ∧
      deleteFileRoute s' id = .ok s' := by
  refine ⟨rfl, ?_⟩
  intro s' hs'
  have hs2 : s' = { s with blobs := s.blobs.filter (fun b => !(b == id)), metas := kvDelMeta s.metas id, history := s.history.filter (fun h => !(h.id == id)) } := by
    have hok : Except.ok (ε := Err) { s with blobs := s.blobs.filter (fun b => !(b == id)), metas := kvDelMeta s.metas id, history := s.history.filter (fun h => !(h.id == id)) } = Except.ok s' := hs'
    exact (Except.ok.inj hok).symm
  subst hs2
  refine ⟨kvGet_del_self s.metas id, ?_, ?_, ?_⟩
  · intro hmem
    have hpred := (List.mem_filter.mp hmem).2
    simp at hpred
  · intro h hmem
    have hpred := (List.mem_filter.mp hmem).2
    simpa using hpred
  · have hb : (s.blobs.filter (fun b => !(b == id))).filter (fun b => !(b == id))
        = s.blobs.filter (fun b => !(b == id)) := by
      rw [List.filter_filter]
      apply List.filter_congr
      intro b _
      rw [Bool.and_self]
    have hm : kvDelMeta (kvDelMeta s.metas id) id = kvDelMeta s.metas id := by
      unfold kvDelMeta
      rw [List.filter_filter]
      apply List.filter_congr
      intro p _
      rw [Bool.and_self]
    have hh : (s.history.filter (fun h => !(h.id == id))).filter (fun h => !(h.id == id))
        = s.history.filter (fun h => !(h.id == id)) := by
      rw [List.filter_filter]
      apply List.filter_congr
      intro h _
      rw [Bool.and_self]
    simp only [deleteFileRoute, Except.ok.injEq]
    rw [Store.mk.injEq]
    exact ⟨hb, hm, hh, rfl⟩

/-- Witness for C10 at a concrete input: deleting the absent id `x`
succeeds, leaves no trace of `x`, and a second delete returns the same
state. -/
theorem file_delete_total_and_idempotent_witness :
    ∃ s', deleteFileRoute w10store "x" = Except.ok s' ∧
      kvGetMeta s'.metas "x" = none ∧ deleteFileRoute s' "x" = Except.ok s' := by
  obtain ⟨h1, h2⟩ := file_delete_total_and_idempotent w10store "x"
  cases hx : deleteFileRoute w10store "x" with
  | error e =>
    rw [hx] at h1
    simp [Except.isOk, Except.toBool] at h1
  | ok s' =>
    obtain ⟨a, b, c, d⟩ := h2 s' hx
    exact ⟨s', rfl, a, d⟩

theorem contains_filter_self (l : List String) (x : String) :
    (l.filter (fun g => !(g == x))).contains x = false := by
  simp [List.contains, List.mem_filter]

theorem contains_filter_other (l : List String) (x y : String) (h : ¬ y = x) :
    (l.filter (fun g => !(g == x))).contains y = l.contains y := by
  rw [Bool.eq_iff_iff]
  simp [List.contains, List.mem_filter, h]

theorem contains_append_self (l : List String) (x : String) :
    (l ++ [x]).contains x = true := by
  simp [List.contains]

theorem contains_append_other (l : List String) (x y : String) (h : ¬ y = x) :
    (l ++ [x]).contains y = l.contains y := by
  rw [Bool.eq_iff_iff]
  simp [List.contains, h]

theorem countP_le_one_of_nodup {α : Type} (l : List α) (h : α → String) (a : String)
    (hnd : (l.map h).Nodup) : l.countP (fun x => h x == a) ≤ 1 := by
  induction l with
  | nil => simp
  | cons x rest ih =>
    simp only [List.map_cons, List.nodup_cons] at hnd
    rw [List.countP_cons]
    by_cases hx : (h x == a) = true
    · have hz : rest.countP (fun y => h y == a) = 0 := by
        rw [List.countP_eq_zero]
        intro y hy hcon
        have h1 : h y = a := by simpa using hcon
        have h2 : h x = a := by simpa using hx
        exact hnd.1 (List.mem_map.mpr ⟨y, hy, by rw [h1, h2]⟩)
      rw [hz]
      simp [hx]
    · simp only [hx, if_false]
      simpa using ih hnd.2

theorem countP_map_congr {α β : Type} (l : List α) (g : α → β) (p : β → Bool) (q : α → Bool)
    (h : ∀ a ∈ l, p (g a) = q a) : List.countP p (l.map g) = List.countP q l := by
  induction l with
  | nil => rfl
  | cons a rest ih =>
    rw [List.map_cons, List.countP_cons, List.countP_cons, h a (List.mem_cons_self a rest),
      ih (fun a' ha' => h a' (List.mem_cons_of_mem a ha'))]

theorem metaFolderId_congr (s s' : Store) (f : String)
    (h : kvGetMeta s'.metas f = kvGetMeta s.metas f) :
    metaFolderId s' f = metaFolderId s f := by
  unfold metaFolderId
  rw [h]

theorem applyFolderOp_ids (s : Store) (op : FolderOp) :
    (applyFolderOp s op).folders.map (fun fd => fd.id) = s.folders.map (fun fd => fd.id) := by
  cases op with
  | addFile T fid =>
    by_cases hT : s.folders.any (fun fd => fd.id == T)
    · cases hm : kvGetMeta s.metas fid with
      | none => simp [applyFolderOp, addFile, hT, hm]
      | some v =>
        cases v with
        | none => simp [applyFolderOp, addFile, hT, hm]
        | some m =>
          simp only [applyFolderOp, addFile, hT, Bool.not_true, Bool.false_eq_true, if_false, hm]
          rw [List.map_map]
          apply List.map_congr_left
          intro fd _
          simp only [Function.comp, addFileFolderUpdate]
          split <;> rfl
    · simp [applyFolderOp, addFile, hT]
  | move src fid tgt =>
    by_cases hsrc : s.folders.any (fun fd => fd.id == src)
    · by_cases htgt : s.folders.any (fun fd => fd.id == tgt)
      · simp only [applyFolderOp, move, hsrc, htgt, Bool.not_true, Bool.false_eq_true, if_false]
        rw [List.map_map]
        apply List.map_congr_left
        intro fd _
        rfl
      · simp [applyFolderOp, move, hsrc, htgt]
    · simp [applyFolderOp, move, hsrc]

theorem addFileFolderUpdate_id (T fid : String) (fd : Folder) :
    (addFileFolderUpdate T fid fd).id = fd.id := by
  unfold addFileFolderUpdate
  split <;> rfl

theorem addFileFolderUpdate_contains_self (T fid : String) (fd : Folder) :
    (addFileFolderUpdate T fid fd).fileIds.contains fid = (fd.id == T) := by
  simp only [addFileFolderUpdate]
  by_cases h : (fd.id == T) = true
  · rw [if_pos h]
    dsimp only
    rw [contains_append_self, h]
  · rw [if_neg h]
    dsimp only
    rw [contains_filter_self]
    have h' : (fd.id == T) = false := by simpa using h
    rw [h']

theorem addFileFolderUpdate_contains_other (T fid f : String) (fd : Folder) (hf : ¬ f = fid) :
    (addFileFolderUpdate T fid fd).fileIds.contains f = fd.fileIds.contains f := by
  simp only [addFileFolderUpdate]
  by_cases h : (fd.id == T) = true
  · rw [if_pos h]
    dsimp only
    rw [contains_append_other fd.fileIds fid f hf]
  · rw [if_neg h]
    dsimp only
    rw [contains_filter_other fd.fileIds fid f hf]

theorem moveFolderUpdate_id (src fid tgt : String) (fd : Folder) :
    (moveFolderUpdate src fid tgt fd).id = fd.id := rfl

theorem moveFolderUpdate_contains_self (src fid tgt : String) (fd : Folder)
    (hnc : fd.fileIds.contains fid = true → (fd.id == src) = true ∨ (fd.id == tgt) = true) :
    (moveFolderUpdate src fid tgt fd).fileIds.contains fid = (fd.id == tgt) := by
  simp only [moveFolderUpdate]
  by_cases h2 : (fd.id == tgt) = true
  · rw [if_pos h2, h2]
    by_cases h3 : ((if (fd.id == src) = true then List.filter (fun g => !(g == fid)) fd.fileIds else fd.fileIds).contains fid) = true
    · rw [if_pos h3, h3]
    · rw [if_neg h3, contains_append_self]
  · rw [if_neg h2]
    have h2' : (fd.id == tgt) = false := by simpa using h2
    rw [h2']
    by_cases h1 : (fd.id == src) = true
    · rw [if_pos h1, contains_filter_self]
    · rw [if_neg h1]
      by_cases h0 : fd.fileIds.contains fid = true
      · rcases hnc h0 with hc | hc
        · exact absurd hc h1
        · exact absurd hc h2
      · have h0' : fd.fileIds.contains fid = false := by simpa using h0
        rw [h0']

theorem moveFolderUpdate_contains_other (src fid tgt f : String) (fd : Folder) (hf : ¬ f = fid) :
    (moveFolderUpdate src fid tgt fd).fileIds.contains f = fd.fileIds.contains f := by
  simp only [moveFolderUpdate]
  by_cases h2 : (fd.id == tgt) = true
  · rw [if_pos h2]
    by_cases h3 : ((if (fd.id == src) = true then List.filter (fun g => !(g == fid)) fd.fileIds else fd.fileIds).contains fid) = true
    · rw [if_pos h3]
      by_cases h1 : (fd.id == src) = true
      · rw [if_pos h1, contains_filter_other fd.fileIds fid f hf]
      · rw [if_neg h1]
    · rw [if_neg h3, contains_append_other _ fid f hf]
      by_cases h1 : (fd.id == src) = true
      · rw [if_pos h1, contains_filter_other fd.fileIds fid f hf]
      · rw [if_neg h1]
  · rw [if_neg h2]
    by_cases h1 : (fd.id == src) = true
    · rw [if_pos h1, contains_filter_other fd.fileIds fid f hf]
    · rw [if_neg h1]

theorem applyFolderOp_preserves (s : Store) (op : FolderOp) (f : String)
    (hids : (s.folders.map (fun fd => fd.id)).Nodup)
    (hok : opOK s op) (hinv : fileInv s f) :
    fileInv (applyFolderOp s op) f := by
  cases op with
  | addFile T fid =>
    by_cases hT : s.folders.any (fun fd => fd.id == T)
    · cases hm : kvGetMeta s.metas fid with
      | none => simpa [applyFolderOp, addFile, hT, hm] using hinv
      | some v =>
        cases v with
        | none => simpa [applyFolderOp, addFile, hT, hm] using hinv
        | some m =>
          simp only [applyFolderOp, addFile, hT, Bool.not_true, Bool.false_eq_true, if_false,
            hm, fileInv]
          constructor
          · by_cases hf : f = fid
            · rw [hf]
              refine le_trans (le_of_eq (countP_map_congr s.folders _ _
                (fun fd => fd.id == T) ?_))
                (countP_le_one_of_nodup s.folders (fun fd => fd.id) T hids)
              intro fd _
              exact addFileFolderUpdate_contains_self T fid fd
            · refine le_trans (le_of_eq (countP_map_congr s.folders _ _
                (fun fd => fd.fileIds.contains f) ?_)) hinv.1
              intro fd _
              exact addFileFolderUpdate_contains_other T fid f fd hf
          · intro fd' hfd' hcont
            obtain ⟨fd, hfd, hfdeq⟩ := List.mem_map.mp hfd'
            subst hfdeq
            by_cases hf : f = fid
            · by_cases hT2 : (fd.id == T) = true
              · have hTeq : fd.id = T := by simpa using hT2
                unfold metaFolderId
                dsimp only
                rw [hf, kvGet_put_self]
                show some T = some ((addFileFolderUpdate T fid fd).id)
                rw [addFileFolderUpdate_id, hTeq]
              · exfalso
                rw [hf] at hcont
                rw [addFileFolderUpdate_contains_self T fid fd] at hcont
                exact absurd hcont hT2
            · have hcont' : fd.fileIds.contains f = true := by
                rw [addFileFolderUpdate_contains_other T fid f fd hf] at hcont
                exact hcont
              have hbase := hinv.2 fd hfd hcont'
              unfold metaFolderId
              dsimp only
              rw [kvGet_put_other s.metas fid f _ hf]
              unfold metaFolderId at hbase
              rw [hbase, addFileFolderUpdate_id]
    · simpa [applyFolderOp, addFile, hT] using hinv
  | move src fid tgt =>
    by_cases hsrc : s.folders.any (fun fd => fd.id == src)
    · by_cases htgt : s.folders.any (fun fd => fd.id == tgt)
      · obtain ⟨m, hm⟩ : ∃ m, kvGetMeta s.metas fid = some (some m) := by
          have h1 := hok.1
          unfold hasParsedMeta at h1
          cases hx : kvGetMeta s.metas fid with
          | none =>
            rw [hx] at h1
            simp at h1
          | some v =>
            cases v with
            | none =>
              rw [hx] at h1
              simp at h1
            | some m => exact ⟨m, rfl⟩
        have hnc : ∀ fd ∈ s.folders, fd.fileIds.contains fid = true →
            (fd.id == src) = true ∨ (fd.id == tgt) = true := by
          intro fd hfd hcont
          rcases hok.2 fd hfd hcont with h | h
          · exact Or.inl (by simpa using h)
          · exact Or.inr (by simpa using h)
        simp only [applyFolderOp, move, hsrc, htgt, Bool.not_true, Bool.false_eq_true, if_false,
          hm, fileInv]
        constructor
        · by_cases hf : f = fid
          · rw [hf]
            refine le_trans (le_of_eq (countP_map_congr s.folders _ _
              (fun fd => fd.id == tgt) ?_))
              (countP_le_one_of_nodup s.folders (fun fd => fd.id) tgt hids)
            intro fd hfd
            exact moveFolderUpdate_contains_self src fid tgt fd (hnc fd hfd)
          · refine le_trans (le_of_eq (countP_map_congr s.folders _ _
              (fun fd => fd.fileIds.contains f) ?_)) hinv.1
            intro fd _
            exact moveFolderUpdate_contains_other src fid tgt f fd hf
        · intro fd' hfd' hcont
          obtain ⟨fd, hfd, hfdeq⟩ := List.mem_map.mp hfd'
          subst hfdeq
          by_cases hf : f = fid
          · by_cases hT2 : (fd.id == tgt) = true
            · have hTeq : fd.id = tgt := by simpa using hT2
              unfold metaFolderId
              dsimp only
              rw [hf, kvGet_put_self]
              show some tgt = some ((moveFolderUpdate src fid tgt fd).id)
              rw [moveFolderUpdate_id, hTeq]
            · exfalso
              rw [hf] at hcont
              rw [moveFolderUpdate_contains_self src fid tgt fd (hnc fd hfd)] at hcont
              exact absurd hcont hT2
          · have hcont' : fd.fileIds.contains f = true := by
              rw [moveFolderUpdate_contains_other src fid tgt f fd hf] at hcont
              exact hcont
            have hbase := hinv.2 fd hfd hcont'
            unfold metaFolderId
            dsimp only
            rw [kvGet_put_other s.metas fid f _ hf]
            unfold metaFolderId at hbase
            rw [hbase, moveFolderUpdate_id]
      · simpa [applyFolderOp, move, hsrc, htgt] using hinv
    · simpa [applyFolderOp, move, hsrc] using hinv

/-- C4 (amended): starting from a state whose folder ids are distinct and
in which file `f` satisfies the at-most-one-folder invariant, any sequence
of `addFile` and `move` operations preserves the invariant — provided
each `move` is issued for a file that has a parseable metadata record and
is unfiled or filed only in the move's source or target folder (`SeqOK`).
`addFile` needs no side condition.  The unamended claim, quantifying over
arbitrary `move` calls, is refuted separately. -/
theorem folder_membership_invariant (s : Store) (ops : List FolderOp) (f : String)
    (hids : (s.folders.map (fun fd => fd.id)).Nodup)
    (hinv : fileInv s f) (hok : SeqOK s ops) :
    fileInv (runFolderOps s ops) f := by
  induction ops generalizing s with
  | nil => exact hinv
  | cons op rest ih =>
    cases hok with
    | cons _ _ _ hop hrest =>
      exact ih (applyFolderOp s op)
        (by rw [applyFolderOp_ids]; exact hids)
        (applyFolderOp_preserves s op f hids hop hinv) hrest

/-- C4 counterexample: the claim as stated is false.  From a state
satisfying the invariant, `addFile` files `a` into folder `f-x`; a
subsequent `move` whose source `f-s` is not the folder actually holding
`a` removes nothing from `f-x` yet adds `a` to `f-t`, so `a` ends up in
the `fileIds` of two folders at once. -/
theorem folder_membership_claim_false :
    fileInv c4store "a" ∧
    ¬ fileInv (runFolderOps c4store
      [.addFile "f-x" "a", .move "f-s" "a" "f-t"]) "a" := by
  constructor
  · decide
  · decide

/-- Witness for the amended C4 at a concrete input: filing `a` into `f-s`
and then moving it from `f-s` to `f-t` (a `SeqOK` sequence) keeps the
invariant. -/
theorem folder_membership_invariant_witness :
    fileInv (runFolderOps w4store [.addFile "f-s" "a", .move "f-s" "a" "f-t"]) "a" := by
  apply folder_membership_invariant w4store [.addFile "f-s" "a", .move "f-s" "a" "f-t"] "a"
    (by decide) (by decide)
  refine SeqOK.cons _ _ _ trivial (SeqOK.cons _ _ _ ?_ (SeqOK.nil _))
  constructor
  · decide
  · decide
